import Mathlib

/-!
Shallow embedding of `src/seller.py` (Ozon price/stock synchronizer).

Python values are modelled as follows: `str` is `String` (or `List Char`
where character-level reasoning is needed), Python `list` is `List`,
`int` is `Int`/`Nat`, and a Python function that can raise an exception
returns `Option`/a flagged result.  Dictionary-shaped rows and payload
entries are modelled as structures whose field names transliterate the
dictionary keys (`Код` → `code`, `Количество` → `quantity`, `Цена` →
`price`).
-/

set_option autoImplicit false

namespace Seller

/-- One row of the vendor spreadsheet (`watch_remnants` element):
keys `Код`, `Количество`, `Цена` of `seller.py`. -/
structure Watch where
  code : String
  quantity : String
  price : String
deriving DecidableEq, Repr

/-- One stock-update payload entry: `{"offer_id": ..., "stock": ...}`
built in `create_stocks` (seller.py lines 195-210). -/
structure StockEntry where
  offer_id : String
  stock : Int
deriving DecidableEq, Repr

/-- One price-update payload entry built in `create_prices`
(seller.py lines 229-240). -/
structure PriceEntry where
  auto_action_enabled : String
  currency_code : String
  offer_id : String
  old_price : String
  price : String
deriving DecidableEq, Repr

/-- Accumulate a base-10 numeral; `none` as soon as a non-digit appears. -/
def parseDigitsGo (acc : Nat) : List Char → Option Nat
  | [] => some acc
  | c :: cs => if c.isDigit then parseDigitsGo (acc * 10 + (c.toNat - 48)) cs else none

/-- Models Python `int(text)` for a string argument: an optional sign
followed by at least one decimal digit parses to the exact integer value;
everything else raises `ValueError`, modelled as `none`.  (Python also
tolerates surrounding whitespace and underscore separators; no quantity
text of the spec or claims uses those, and they are not modelled.) -/
def int_of_string (s : String) : Option Int :=
  match s.data with
  | [] => none
  | c :: cs =>
    if c = '-' then
      match cs with
      | [] => none
      | _ => (parseDigitsGo 0 cs).map (fun n => -(n : Int))
    else if c = '+' then
      match cs with
      | [] => none
      | _ => (parseDigitsGo 0 cs).map (fun n => (n : Int))
    else (parseDigitsGo 0 (c :: cs)).map (fun n => (n : Int))

/-- The quantity branch of `create_stocks` (seller.py lines 198-204):
`">10"` gives 100, `"1"` gives 0, anything else goes through Python
`int(...)`, whose raised `ValueError` on non-numeric text is `none`. -/
def stockOfQuantity (count : String) : Option Int :=
  if count = ">10" then some 100
  else if count = "1" then some 0
  else int_of_string count

/-- Python `list.remove(x)`: delete the first occurrence of `x`.
(`list.remove` raises `ValueError` when `x` is absent; in `create_stocks`
it is only called right after a successful membership test, so the
absent case is unreachable and we return the list unchanged there.) -/
def removeFirst (x : String) : List String → List String
  | [] => []
  | y :: ys => if y = x then ys else y :: removeFirst x ys

/-- The first loop of `create_stocks` (seller.py lines 196-206): walk the
records; a record whose code is currently in `offer_ids` emits a stock
entry and removes its code from `offer_ids`.  Returns the emitted entries
and the final state of the `offer_ids` list; `none` models the
`ValueError` raised by `int` on unparseable quantity text. -/
def create_stocks_loop : List Watch → List String → Option (List StockEntry × List String)
  | [], offer_ids => some ([], offer_ids)
  | w :: rest, offer_ids =>
    if w.code ∈ offer_ids then
      match stockOfQuantity w.quantity with
      | none => none
      | some st =>
        match create_stocks_loop rest (removeFirst w.code offer_ids) with
        | none => none
        | some (s, o) => some (⟨w.code, st⟩ :: s, o)
    else create_stocks_loop rest offer_ids

/-- Embeds `create_stocks` (seller.py lines 179-210).  The Python function
mutates the `offer_ids` list it was handed; the second component of the
result is that list's final contents, observable by the caller after the
call (Python passes the list by reference).  The trailing `for offer_id
in offer_ids` loop appends a zero-stock entry for every id left in the
mutated list. -/
def create_stocks (watch_remnants : List Watch) (offer_ids : List String) :
    Option (List StockEntry × List String) :=
  match create_stocks_loop watch_remnants offer_ids with
  | none => none
  | some (s, remaining) => some (s ++ remaining.map (fun o => ⟨o, 0⟩), remaining)

/-- Python `str.split(sep)[...]` at character level: split a character
list on a separator character, as `"a.b".split(".") == ["a", "b"]` does
(the result is never empty; splitting the empty string gives `[[]]`). -/
def splitOnChar (sep : Char) : List Char → List (List Char)
  | [] => [[]]
  | c :: cs =>
    if c = sep then [] :: splitOnChar sep cs
    else
      match splitOnChar sep cs with
      | [] => [[c]]
      | g :: gs => (c :: g) :: gs

/-- Embeds `price_conversion` (seller.py lines 243-258):
`re.sub("[^0-9]", "", price.split(".")[0])`, i.e. take the part before
the first `.` and keep only the ASCII digits `0`-`9` (`Char.isDigit`
is exactly the `[0-9]` test). -/
def price_conversion (price : String) : String :=
  ⟨((splitOnChar '.' price.data).headD []).filter Char.isDigit⟩

/-- Embeds `create_prices` (seller.py lines 213-240): for each record
whose code is in `offer_ids` emit a price entry with the literal fields
of lines 232-238.  No removal from `offer_ids` happens here. -/
def create_prices (watch_remnants : List Watch) (offer_ids : List String) :
    List PriceEntry :=
  match watch_remnants with
  | [] => []
  | w :: rest =>
    if w.code ∈ offer_ids then
      { auto_action_enabled := "UNKNOWN"
        currency_code := "RUB"
        offer_id := w.code
        old_price := "0"
        price := price_conversion w.price } :: create_prices rest offer_ids
    else create_prices rest offer_ids

/-- Python `range(start, stop, step)` as a list, fuel-structured: the fuel
`stop - start` bounds the iteration count once `step ≥ 1`.  (`range` with
`step = 0` raises `ValueError` in Python; no call site of this repository
uses step 0 and the claims assume a positive size, so that case is
mapped to `[]` here.) -/
def rangeStepGo (step : Nat) : Nat → Nat → Nat → List Nat
  | 0, _, _ => []
  | fuel + 1, start, stop =>
    if start < stop then start :: rangeStepGo step fuel (start + step) stop else []

/-- Python `range(start, stop, step)` for `step ≥ 1`. -/
def rangeStep (start stop step : Nat) : List Nat :=
  if step = 0 then [] else rangeStepGo step (stop - start) start stop

/-- Embeds `divide` (seller.py lines 261-278): the generator
`(lst[i : i + n] for i in range(0, len(lst), n))`, fully materialized
(its call sites all wrap it in `list(...)` or iterate it once); the
slice `lst[i : i + n]` is `(lst.drop i).take n`. -/
def divide {α : Type} (lst : List α) (n : Nat) : List (List α) :=
  (rangeStep 0 lst.length n).map fun i => (lst.drop i).take n

/-- Models `main` (seller.py lines 337-347) after the two fetches: given
the downloaded records and the fetched offer ids, build the stock update
list, batch it by 100, then build the price update list **from the same
`offer_ids` list object that `create_stocks` just mutated**, and batch it
by 900.  Returns the pushed stock batches and price batches; `none`
models an exception escaping to the `except` arms. -/
def mainModel (watch_remnants : List Watch) (offer_ids : List String) :
    Option (List (List StockEntry) × List (List PriceEntry)) :=
  match create_stocks watch_remnants offer_ids with
  | none => none
  | some (stocks, remaining) =>
    some (divide stocks 100, divide (create_prices watch_remnants remaining) 900)

/-- Models `upload_prices` (seller.py lines 281-302) after the fetch: the
offer ids are freshly fetched there, so `create_prices` sees the full
list, and the result is batched by 1000. -/
def uploadPricesBatches (watch_remnants : List Watch) (offer_ids : List String) :
    List (List PriceEntry) :=
  divide (create_prices watch_remnants offer_ids) 1000

/-- Models lines 169-176 of `download_stock`: after successful extraction
the file `ostatki.xls` exists in the working directory; then
`pd.read_excel` runs (its outcome is the `parseResult` argument, `none`
when it raises), and only after a successful parse does the straight-line
`os.remove("./ostatki.xls")` execute.  The boolean in the result records
whether the extracted file still exists when control leaves the
function (normally or by exception). -/
def download_stock_after_extract (parseResult : Option (List Watch)) :
    Option (List Watch) × Bool :=
  match parseResult with
  | some records => (some records, false)
  | none => (none, true)

/-- The quantity-text domain of an inventory record per the data model:
numeric text (Python `int` parses it), the literal `"1"`, or `">10"`. -/
def QuantityText (q : String) : Prop :=
  q = ">10" ∨ q = "1" ∨ (int_of_string q).isSome

instance : DecidablePred QuantityText := fun q => by
  unfold QuantityText; infer_instance

/-- The spec example string 5'990.00 руб. built characterwise (character
code 39 is the apostrophe used as thousands separator). -/
def rawPriceExample : String :=
  ⟨['5', Char.ofNat 39, '9', '9', '0', '.', '0', '0', ' ', 'р', 'у', 'б', '.']⟩

/-- All (record, offer id) pairs whose code and id agree; `create_prices`
emits at most one entry per such pair. -/
def matchedPairs (watch_remnants : List Watch) (offer_ids : List String) :
    List (Watch × String) :=
  watch_remnants.flatMap fun w =>
    (offer_ids.filter fun o => w.code == o).map fun o => (w, o)

/-- One product item of the paginated `v2/product/list` response;
`get_offer_ids` extracts its `offer_id` field at the end. -/
structure Product where
  offer_id : String
deriving DecidableEq, Repr

/-- One response of `get_product_list` (seller.py lines 14-49): the
`result` object's `items`, `total` and `last_id` fields. -/
structure Page where
  items : List Product
  total : Nat
  last_id : String

/-- The `while True` loop of `get_offer_ids` (seller.py lines 71-83).  A
server behaviour maps each cursor value to the page the endpoint returns
(credentials and the fixed limit 1000 do not influence the loop).  The
fuel bounds how many requests we observe; `none` means the loop is still
running after that many requests.  Each pass fetches the page for the
current `last_id`, extends `product_list`, and exits once the reported
total equals the accumulated length, mapping each product to its offer
id. -/
def get_offer_ids_go (server : String → Page) :
    Nat → String → List Product → Option (List String)
  | 0, _, _ => none
  | fuel + 1, last_id, product_list =>
    if (server last_id).total = (product_list ++ (server last_id).items).length
    then some ((product_list ++ (server last_id).items).map Product.offer_id)
    else get_offer_ids_go server fuel (server last_id).last_id
      (product_list ++ (server last_id).items)

/-- The loop of `get_offer_ids` started from its initial state: empty
cursor string and empty accumulator. -/
def get_offer_ids_model (server : String → Page) (fuel : Nat) :
    Option (List String) :=
  get_offer_ids_go server fuel "" []

/-- The cursor value before the k-th request of the loop (0-based). -/
def traceLast (server : String → Page) : Nat → String
  | 0 => ""
  | k + 1 => (server (traceLast server k)).last_id

/-- The accumulated product list after k requests. -/
def traceAcc (server : String → Page) : Nat → List Product
  | 0 => []
  | k + 1 => traceAcc server k ++ (server (traceLast server k)).items

/-- The loop's exit test right after the k-th request: the reported total
equals the number of items accumulated so far. -/
def stopsAt (server : String → Page) (k : Nat) : Prop :=
  (server (traceLast server k)).total = (traceAcc server (k + 1)).length

instance (server : String → Page) (k : Nat) : Decidable (stopsAt server k) := by
  unfold stopsAt; infer_instance

/-- A concrete server behaviour with two pages of exactly 1000 items each
and a reported total of 2000. -/
def pageServer : String → Page := fun last_id =>
  if last_id = "" then ⟨List.replicate 1000 ⟨"x"⟩, 2000, "p1"⟩
  else ⟨List.replicate 1000 ⟨"y"⟩, 2000, "p2"⟩

/-! Helper lemmas about `removeFirst`. -/

theorem removeFirst_perm {x : String} {l : List String} (h : x ∈ l) :
    l.Perm (x :: removeFirst x l) := by
  induction l with
  | nil => cases h
  | cons y ys ih =>
    by_cases hy : y = x
    · subst hy; simp [removeFirst]
    · rcases List.mem_cons.mp h with h1 | h1
      · exact absurd h1.symm hy
      · simp only [removeFirst, if_neg hy]
        exact ((ih h1).cons y).trans (List.Perm.swap x y (removeFirst x ys))

theorem removeFirst_eq_filter {x : String} {l : List String} (h : l.Nodup) :
    removeFirst x l = l.filter (· != x) := by
  induction l with
  | nil => rfl
  | cons y ys ih =>
    rcases List.nodup_cons.mp h with ⟨hy, hys⟩
    by_cases hxy : y = x
    · subst hxy
      have hself : ys.filter (· != y) = ys :=
        List.filter_eq_self.mpr fun a ha => bne_iff_ne.mpr fun hax => hy (hax ▸ ha)
      simp [removeFirst, List.filter_cons, hself]
    · simp [removeFirst, if_neg hxy, List.filter_cons, bne_iff_ne.mpr hxy, ih hys]

theorem nodup_removeFirst {x : String} {l : List String} (h : l.Nodup) :
    (removeFirst x l).Nodup := by
  rw [removeFirst_eq_filter h]; exact h.filter _

/-! Helper lemmas about `create_stocks_loop` and `create_stocks`. -/

theorem create_stocks_loop_perm :
    ∀ (watch_remnants : List Watch) (offer_ids : List String) (ms : List StockEntry)
      (rem : List String),
      create_stocks_loop watch_remnants offer_ids = some (ms, rem) →
      (ms.map StockEntry.offer_id ++ rem).Perm offer_ids := by
  intro R
  induction R with
  | nil =>
    intro O ms rem h
    simp only [create_stocks_loop, Option.some.injEq, Prod.mk.injEq] at h
    rw [← h.1, ← h.2]
    simp
  | cons w rest ih =>
    intro O ms rem h
    simp only [create_stocks_loop] at h
    by_cases hm : w.code ∈ O
    · rw [if_pos hm] at h
      cases hq : stockOfQuantity w.quantity with
      | none => rw [hq] at h; cases h
      | some st =>
        rw [hq] at h
        cases hrec : create_stocks_loop rest (removeFirst w.code O) with
        | none => rw [hrec] at h; cases h
        | some pr =>
          obtain ⟨s2, o2⟩ := pr
          rw [hrec] at h
          simp only [Option.some.injEq, Prod.mk.injEq] at h
          rw [← h.1, ← h.2]
          simp only [List.map_cons, List.cons_append]
          exact ((ih (removeFirst w.code O) s2 o2 hrec).cons w.code).trans
            (removeFirst_perm hm).symm
    · rw [if_neg hm] at h
      exact ih O ms rem h

theorem create_stocks_loop_total :
    ∀ (watch_remnants : List Watch) (offer_ids : List String),
      (∀ w ∈ watch_remnants, (stockOfQuantity w.quantity).isSome) →
      ∃ ms rem, create_stocks_loop watch_remnants offer_ids = some (ms, rem) := by
  intro R
  induction R with
  | nil => intro O _; exact ⟨[], O, rfl⟩
  | cons w rest ih =>
    intro O hq
    have hw : (stockOfQuantity w.quantity).isSome := hq w (List.mem_cons_self w rest)
    obtain ⟨st, hst⟩ := Option.isSome_iff_exists.mp hw
    have hrest : ∀ x ∈ rest, (stockOfQuantity x.quantity).isSome :=
      fun x hx => hq x (List.mem_cons_of_mem w hx)
    by_cases hm : w.code ∈ O
    · obtain ⟨ms, rem, hrec⟩ := ih (removeFirst w.code O) hrest
      exact ⟨⟨w.code, st⟩ :: ms, rem, by
        simp only [create_stocks_loop, if_pos hm, hst, hrec]⟩
    · obtain ⟨ms, rem, hrec⟩ := ih O hrest
      exact ⟨ms, rem, by simp only [create_stocks_loop, if_neg hm, hrec]⟩

theorem bne_comm_str (a b : String) : (a != b) = (b != a) := by
  by_cases h : a = b
  · subst h; rfl
  · rw [bne_iff_ne.mpr h, bne_iff_ne.mpr (Ne.symm h)]

theorem create_stocks_loop_rem :
    ∀ (watch_remnants : List Watch) (offer_ids : List String) (ms : List StockEntry)
      (rem : List String),
      offer_ids.Nodup →
      create_stocks_loop watch_remnants offer_ids = some (ms, rem) →
      rem = offer_ids.filter (fun o => watch_remnants.all (fun w => w.code != o)) := by
  intro R
  induction R with
  | nil =>
    intro O ms rem _ h
    simp only [create_stocks_loop, Option.some.injEq, Prod.mk.injEq] at h
    rw [← h.2]
    simp
  | cons w rest ih =>
    intro O ms rem hnd h
    simp only [create_stocks_loop] at h
    by_cases hm : w.code ∈ O
    · rw [if_pos hm] at h
      cases hq : stockOfQuantity w.quantity with
      | none => rw [hq] at h; cases h
      | some st =>
        rw [hq] at h
        cases hrec : create_stocks_loop rest (removeFirst w.code O) with
        | none => rw [hrec] at h; cases h
        | some pr =>
          obtain ⟨s2, o2⟩ := pr
          rw [hrec] at h
          simp only [Option.some.injEq, Prod.mk.injEq] at h
          rw [← h.2]
          have := ih (removeFirst w.code O) s2 o2 (nodup_removeFirst hnd) hrec
          rw [this, removeFirst_eq_filter hnd, List.filter_filter]
          refine List.filter_congr fun o _ => ?_
          simp only [List.all_cons, bne_comm_str o w.code, Bool.and_comm]
    · rw [if_neg hm] at h
      rw [ih O ms rem hnd h]
      refine List.filter_congr fun o ho => ?_
      have : w.code ≠ o := fun he => hm (he ▸ ho)
      simp only [List.all_cons, bne_iff_ne.mpr this, Bool.true_and]

theorem create_stocks_rem (watch_remnants : List Watch) (offer_ids : List String)
    (s : List StockEntry) (rem : List String) (hnd : offer_ids.Nodup)
    (h : create_stocks watch_remnants offer_ids = some (s, rem)) :
    rem = offer_ids.filter (fun o => watch_remnants.all (fun w => w.code != o)) := by
  unfold create_stocks at h
  cases hl : create_stocks_loop watch_remnants offer_ids with
  | none => rw [hl] at h; cases h
  | some pr =>
    obtain ⟨ms, rem2⟩ := pr
    rw [hl] at h
    simp only [Option.some.injEq, Prod.mk.injEq] at h
    exact h.2 ▸ create_stocks_loop_rem watch_remnants offer_ids ms rem2 hnd hl

theorem count_one_of_nodup_mem {l : List String} {o : String} (hnd : l.Nodup)
    (h : o ∈ l) : l.count o = 1 := by
  induction l with
  | nil => cases h
  | cons y ys ih =>
    rcases List.nodup_cons.mp hnd with ⟨hy, hys⟩
    rcases List.mem_cons.mp h with h1 | h1
    · subst h1
      simp [List.count_cons, List.count_eq_zero.mpr hy]
    · have hne : (y == o) = false :=
        beq_eq_false_iff_ne.mpr fun he => hy (he ▸ h1)
      simp [List.count_cons, hne, ih hys h1]

theorem stockOfQuantity_isSome {q : String} (h : QuantityText q) :
    (stockOfQuantity q).isSome := by
  unfold stockOfQuantity
  rcases h with h | h | h
  · simp [h]
  · by_cases h10 : q = ">10" <;> simp [h10, h]
  · by_cases h10 : q = ">10"
    · simp [h10]
    · by_cases h1 : q = "1" <;> simp [h10, h1, h]

theorem map_offer_id_append (ms : List StockEntry) (rem : List String) :
    (ms ++ rem.map fun o => StockEntry.mk o 0).map StockEntry.offer_id =
      ms.map StockEntry.offer_id ++ rem := by
  have hid : StockEntry.offer_id ∘ (fun o => StockEntry.mk o 0) = id := rfl
  simp [List.map_append, List.map_map, hid]

/-- C1: for pairwise-distinct offer ids and records whose quantity text is in
the inventory-record domain, `create_stocks` returns normally, produces
exactly `len(offer_ids)` entries, each offer id is the `offer_id` of exactly
one entry, and every offer id matching no record code gets a zero-stock
entry. -/
theorem create_stocks_covers_offer_ids (watch_remnants : List Watch)
    (offer_ids : List String) (hnd : offer_ids.Nodup)
    (hq : ∀ w ∈ watch_remnants, QuantityText w.quantity) :
    ∃ s rem, create_stocks watch_remnants offer_ids = some (s, rem) ∧
      s.length = offer_ids.length ∧
      (∀ o ∈ offer_ids, (s.map StockEntry.offer_id).count o = 1) ∧
      (∀ o ∈ offer_ids, (∀ w ∈ watch_remnants, w.code ≠ o) →
        StockEntry.mk o 0 ∈ s) := by
  obtain ⟨ms, rem, hl⟩ := create_stocks_loop_total watch_remnants offer_ids
    (fun w hw => stockOfQuantity_isSome (hq w hw))
  have hperm := create_stocks_loop_perm watch_remnants offer_ids ms rem hl
  have hrem := create_stocks_loop_rem watch_remnants offer_ids ms rem hnd hl
  refine ⟨ms ++ rem.map fun o => StockEntry.mk o 0, rem, ?_, ?_, ?_, ?_⟩
  · unfold create_stocks; rw [hl]
  · have := congrArg List.length (map_offer_id_append ms rem)
    simp only [List.length_map] at this
    rw [this, hperm.length_eq]
  · intro o ho
    rw [map_offer_id_append ms rem, hperm.count_eq o]
    exact count_one_of_nodup_mem hnd ho
  · intro o ho hmatch
    have hpred : (watch_remnants.all fun w => w.code != o) = true :=
      List.all_eq_true.mpr fun w hw => bne_iff_ne.mpr (hmatch w hw)
    have homem : o ∈ rem := by rw [hrem]; exact List.mem_filter.mpr ⟨ho, hpred⟩
    exact List.mem_append_right ms (List.mem_map_of_mem _ homem)

/-- C1 witness: a concrete instance with one matched record and one
unmatched offer id. -/
theorem create_stocks_covers_offer_ids_witness :
    (["A", "B"] : List String).Nodup ∧
    (∀ w ∈ [Watch.mk "A" ">10" "100.00"], QuantityText w.quantity) ∧
    (∃ s rem,
      create_stocks [Watch.mk "A" ">10" "100.00"] ["A", "B"] = some (s, rem) ∧
      s.length = (["A", "B"] : List String).length ∧
      (∀ o ∈ (["A", "B"] : List String), (s.map StockEntry.offer_id).count o = 1) ∧
      (∀ o ∈ (["A", "B"] : List String),
        (∀ w ∈ [Watch.mk "A" ">10" "100.00"], w.code ≠ o) →
        StockEntry.mk o 0 ∈ s)) :=
  ⟨by decide, by decide,
    create_stocks_covers_offer_ids [Watch.mk "A" ">10" "100.00"] ["A", "B"]
      (by decide) (by decide)⟩

/-- C2 counterexample: `create_stocks` hands back a mutated caller list; with
one record matching the single offer id, the caller's list ends empty, not
unchanged. -/
theorem create_stocks_mutates_caller :
    create_stocks [Watch.mk "A" "5" "x"] ["A"] =
        some ([StockEntry.mk "A" 5], []) ∧
      ([] : List String) ≠ ["A"] := by decide

/-- C2 amended: `create_stocks` consumes the caller's own offer id list;
after the call (with pairwise-distinct ids) the caller's list holds exactly
the offer ids, in order, that matched no record's code. -/
theorem create_stocks_final_offer_ids (watch_remnants : List Watch)
    (offer_ids : List String) (s : List StockEntry) (rem : List String)
    (hnd : offer_ids.Nodup)
    (h : create_stocks watch_remnants offer_ids = some (s, rem)) :
    rem = offer_ids.filter fun o => watch_remnants.all fun w => w.code != o :=
  create_stocks_rem watch_remnants offer_ids s rem hnd h

/-- C2 amended witness: with offer ids A and B and a single record coded A,
the caller's list ends as the filtered list, here B alone. -/
theorem create_stocks_final_offer_ids_witness :
    (["A", "B"] : List String).Nodup ∧
    create_stocks [Watch.mk "A" "5" "x"] ["A", "B"] =
      some ([StockEntry.mk "A" 5, StockEntry.mk "B" 0], ["B"]) ∧
    (["B"] : List String) =
      (["A", "B"] : List String).filter fun o =>
        [Watch.mk "A" "5" "x"].all fun w => w.code != o :=
  ⟨by decide, by decide,
    create_stocks_final_offer_ids [Watch.mk "A" "5" "x"] ["A", "B"]
      [StockEntry.mk "A" 5, StockEntry.mk "B" 0] ["B"] (by decide) (by decide)⟩

/-- C3: the quantity text of a matched record maps to stock as the code's
branch does: `">10"` to 100, `"1"` to 0, and any other text that Python
`int` accepts to its exact integer value; a matched head record's entry
carries exactly that stock. -/
theorem create_stocks_quantity_map :
    stockOfQuantity ">10" = some 100 ∧
    stockOfQuantity "1" = some 0 ∧
    (∀ (q : String) (n : Int), q ≠ ">10" → q ≠ "1" →
      int_of_string q = some n → stockOfQuantity q = some n) ∧
    (∀ (w : Watch) (rest : List Watch) (offer_ids : List String)
        (s : List StockEntry) (rem : List String), w.code ∈ offer_ids →
      create_stocks (w :: rest) offer_ids = some (s, rem) →
      ∃ st tail, stockOfQuantity w.quantity = some st ∧
        s = StockEntry.mk w.code st :: tail) := by
  refine ⟨rfl, rfl, ?_, ?_⟩
  · intro q n h10 h1 hp
    unfold stockOfQuantity
    rw [if_neg h10, if_neg h1]
    exact hp
  · intro w rest offer_ids s rem hm h
    unfold create_stocks at h
    simp only [create_stocks_loop, if_pos hm] at h
    cases hq : stockOfQuantity w.quantity with
    | none => rw [hq] at h; cases h
    | some st =>
      rw [hq] at h
      cases hrec : create_stocks_loop rest (removeFirst w.code offer_ids) with
      | none => rw [hrec] at h; cases h
      | some pr =>
        obtain ⟨s2, o2⟩ := pr
        rw [hrec] at h
        simp only [Option.some.injEq, Prod.mk.injEq] at h
        exact ⟨st, s2 ++ o2.map fun o => StockEntry.mk o 0, rfl, h.1.symm⟩

/-- C3 witness: quantity "7" passes through to stock 7, both at the mapping
and in a concrete `create_stocks` run. -/
theorem create_stocks_quantity_map_witness :
    stockOfQuantity "7" = some 7 ∧
    (∃ st tail, stockOfQuantity "7" = some st ∧
      ([StockEntry.mk "A" 7] : List StockEntry) = StockEntry.mk "A" st :: tail) :=
  ⟨create_stocks_quantity_map.2.2.1 "7" 7 (by decide) (by decide) (by decide),
    create_stocks_quantity_map.2.2.2 (Watch.mk "A" "7" "x") [] ["A"]
      [StockEntry.mk "A" 7] [] (by decide) (by decide)⟩

/-! Helper lemmas about `splitOnChar` and `price_conversion`. -/

theorem splitOnChar_ne_nil (sep : Char) : ∀ cs : List Char, splitOnChar sep cs ≠ []
  | [] => by simp [splitOnChar]
  | c :: cs => by
    simp only [splitOnChar]
    by_cases h : c = sep
    · simp [h]
    · rw [if_neg h]
      cases hs : splitOnChar sep cs with
      | nil => simp
      | cons g gs => simp

theorem splitOnChar_headD (sep : Char) (cs : List Char) :
    (splitOnChar sep cs).headD [] = cs.takeWhile (· != sep) := by
  induction cs with
  | nil => rfl
  | cons c cs ih =>
    simp only [splitOnChar, List.takeWhile_cons]
    by_cases h : c = sep
    · subst h
      simp
    · rw [if_neg h, bne_iff_ne.mpr h]
      cases hs : splitOnChar sep cs with
      | nil => exact absurd hs (splitOnChar_ne_nil sep cs)
      | cons g gs =>
        rw [hs] at ih
        simp only [List.headD_cons] at ih ⊢
        simp [ih]

/-- C4: `price_conversion` equals, on every string, the part before the
first dot with every non-digit character removed, and maps the two spec
examples as stated. -/
theorem price_conversion_spec :
    (∀ s : String,
      price_conversion s = ⟨(s.data.takeWhile (· != '.')).filter Char.isDigit⟩) ∧
    price_conversion rawPriceExample = "5990" ∧
    price_conversion "100.00" = "100" := by
  refine ⟨fun s => ?_, by decide, by decide⟩
  unfold price_conversion
  rw [splitOnChar_headD]

/-- C6: evaluation of the post-extraction control flow of `download_stock`.
With a failing parse (`none`, i.e. `pd.read_excel` raises) the extracted
`ostatki.xls` is still present when the exception leaves the function,
because the straight-line `os.remove` on line 175 is skipped; only on the
success path is the file removed. -/
theorem download_stock_cleanup_only_on_success :
    (download_stock_after_extract none).2 = true ∧
    (download_stock_after_extract (some [])).2 = false :=
  ⟨rfl, rfl⟩

/-! Helper lemmas about `create_prices`. -/

theorem create_prices_nil (watch_remnants : List Watch) (offer_ids : List String)
    (h : ∀ w ∈ watch_remnants, w.code ∉ offer_ids) :
    create_prices watch_remnants offer_ids = [] := by
  induction watch_remnants with
  | nil => rfl
  | cons w rest ih =>
    simp only [create_prices, if_neg (h w (List.mem_cons_self w rest))]
    exact ih fun x hx => h x (List.mem_cons_of_mem w hx)

/-- C7: `create_prices` emits at most one entry per matched (record, offer)
pair; every entry's offer id is some record's code, its constant fields are
as the code writes them, and its price is the converted price text of a
record with that code. -/
theorem create_prices_spec (watch_remnants : List Watch) (offer_ids : List String) :
    (create_prices watch_remnants offer_ids).length ≤
        (matchedPairs watch_remnants offer_ids).length ∧
    ∀ e ∈ create_prices watch_remnants offer_ids,
      e.offer_id ∈ watch_remnants.map Watch.code ∧
      e.old_price = "0" ∧ e.currency_code = "RUB" ∧
      e.auto_action_enabled = "UNKNOWN" ∧
      ∃ w ∈ watch_remnants, w.code = e.offer_id ∧
        e.price = price_conversion w.price := by
  induction watch_remnants with
  | nil =>
    constructor
    · simp [create_prices, matchedPairs]
    · intro e he; cases he
  | cons w rest ih =>
    constructor
    · simp only [create_prices, matchedPairs, List.flatMap_cons, List.length_append]
      by_cases hm : w.code ∈ offer_ids
      · rw [if_pos hm]
        have h1 : 1 ≤ ((offer_ids.filter fun o => w.code == o).map fun o => (w, o)).length := by
          rw [List.length_map]
          have hin : w.code ∈ offer_ids.filter fun o => w.code == o :=
            List.mem_filter.mpr ⟨hm, by simp⟩
          exact List.length_pos.mpr (List.ne_nil_of_mem hin)
        have h2 := ih.1
        simp only [matchedPairs] at h2
        simp only [List.length_cons]
        omega
      · rw [if_neg hm]
        have h2 := ih.1
        simp only [matchedPairs] at h2
        omega
    · intro e he
      simp only [create_prices] at he
      by_cases hm : w.code ∈ offer_ids
      · rw [if_pos hm] at he
        rcases List.mem_cons.mp he with he1 | he1
        · subst he1
          exact ⟨by simp, rfl, rfl, rfl, w, List.mem_cons_self w rest, rfl, rfl⟩
        · obtain ⟨h1, h2, h3, h4, wi, hwi, h5, h6⟩ := ih.2 e he1
          exact ⟨by simp only [List.map_cons]; exact List.mem_cons_of_mem _ h1,
            h2, h3, h4, wi, List.mem_cons_of_mem w hwi, h5, h6⟩
      · rw [if_neg hm] at he
        obtain ⟨h1, h2, h3, h4, wi, hwi, h5, h6⟩ := ih.2 e he
        exact ⟨by simp only [List.map_cons]; exact List.mem_cons_of_mem _ h1,
          h2, h3, h4, wi, List.mem_cons_of_mem w hwi, h5, h6⟩

/-- C7 witness: a concrete matched record produces the expected single
entry, with every field as claimed. -/
theorem create_prices_spec_witness :
    (create_prices [Watch.mk "A" ">10" "100.00"] ["A", "B"]).length ≤
        (matchedPairs [Watch.mk "A" ">10" "100.00"] ["A", "B"]).length ∧
    (PriceEntry.mk "UNKNOWN" "RUB" "A" "0" "100" ∈
        create_prices [Watch.mk "A" ">10" "100.00"] ["A", "B"]) ∧
    ((PriceEntry.mk "UNKNOWN" "RUB" "A" "0" "100").offer_id ∈
        [Watch.mk "A" ">10" "100.00"].map Watch.code ∧
      (PriceEntry.mk "UNKNOWN" "RUB" "A" "0" "100").old_price = "0" ∧
      (PriceEntry.mk "UNKNOWN" "RUB" "A" "0" "100").currency_code = "RUB" ∧
      (PriceEntry.mk "UNKNOWN" "RUB" "A" "0" "100").auto_action_enabled = "UNKNOWN" ∧
      ∃ w ∈ [Watch.mk "A" ">10" "100.00"],
        w.code = (PriceEntry.mk "UNKNOWN" "RUB" "A" "0" "100").offer_id ∧
        (PriceEntry.mk "UNKNOWN" "RUB" "A" "0" "100").price =
          price_conversion w.price) :=
  ⟨(create_prices_spec [Watch.mk "A" ">10" "100.00"] ["A", "B"]).1,
    by decide,
    (create_prices_spec [Watch.mk "A" ">10" "100.00"] ["A", "B"]).2
      (PriceEntry.mk "UNKNOWN" "RUB" "A" "0" "100") (by decide)⟩

/-! Helper lemmas about `rangeStep` and `divide`. -/

theorem rangeStepGo_stop (step : Nat) :
    ∀ (fuel start stop : Nat), ¬ start < stop → rangeStepGo step fuel start stop = []
  | 0, _, _, _ => rfl
  | fuel + 1, start, stop, h => by simp [rangeStepGo, h]

theorem rangeStepGo_fuel (step : Nat) (hs : 1 ≤ step) :
    ∀ (f1 f2 start stop : Nat), stop - start ≤ f1 → stop - start ≤ f2 →
      rangeStepGo step f1 start stop = rangeStepGo step f2 start stop := by
  intro f1
  induction f1 with
  | zero =>
    intro f2 start stop h1 _
    have hlt : ¬ start < stop := by omega
    rw [rangeStepGo_stop step 0 start stop hlt, rangeStepGo_stop step f2 start stop hlt]
  | succ f ih =>
    intro f2 start stop h1 h2
    cases f2 with
    | zero =>
      have hlt : ¬ start < stop := by omega
      rw [rangeStepGo_stop step (f + 1) start stop hlt,
        rangeStepGo_stop step 0 start stop hlt]
    | succ g =>
      simp only [rangeStepGo]
      by_cases h : start < stop
      · rw [if_pos h, if_pos h, ih g (start + step) stop (by omega) (by omega)]
      · rw [if_neg h, if_neg h]

theorem rangeStep_eq (start stop step : Nat) (hs : 1 ≤ step) :
    rangeStep start stop step =
      if start < stop then start :: rangeStep (start + step) stop step else [] := by
  have hstep : ¬ step = 0 := by omega
  unfold rangeStep
  simp only [if_neg hstep]
  by_cases h : start < stop
  · rw [if_pos h]
    obtain ⟨k, hk⟩ : ∃ k, stop - start = k + 1 := ⟨stop - start - 1, by omega⟩
    rw [hk]
    simp only [rangeStepGo, if_pos h]
    congr 1
    exact rangeStepGo_fuel step hs k (stop - (start + step)) (start + step) stop
      (by omega) (by omega)
  · rw [if_neg h]
    exact rangeStepGo_stop step (stop - start) start stop h

theorem divide_nil {α : Type} (n : Nat) : divide ([] : List α) n = [] := by
  unfold divide rangeStep
  by_cases h : n = 0 <;> simp [h, rangeStepGo]

theorem rangeStepGo_shift (step : Nat) :
    ∀ (fuel a d stop : Nat),
      rangeStepGo step fuel (d + a) stop =
        (rangeStepGo step fuel a (stop - d)).map (d + ·) := by
  intro fuel
  induction fuel with
  | zero => intro a d stop; rfl
  | succ f ih =>
    intro a d stop
    simp only [rangeStepGo]
    by_cases h : d + a < stop
    · have h2 : a < stop - d := by omega
      rw [if_pos h, if_pos h2]
      simp only [List.map_cons]
      rw [Nat.add_assoc]
      rw [ih (a + step) d stop]
    · have h2 : ¬ a < stop - d := by omega
      rw [if_neg h, if_neg h2]
      rfl

theorem divide_cons {α : Type} (lst : List α) (n : Nat) (hn : 1 ≤ n)
    (hne : lst ≠ []) : divide lst n = lst.take n :: divide (lst.drop n) n := by
  have hn0 : ¬ n = 0 := by omega
  have hL : 0 < lst.length := List.length_pos.mpr hne
  unfold divide
  rw [rangeStep_eq 0 lst.length n hn, if_pos hL]
  simp only [List.map_cons, List.drop_zero, Nat.zero_add]
  congr 1
  have hshift : rangeStep n lst.length n =
      (rangeStep 0 (lst.length - n) n).map (n + ·) := by
    unfold rangeStep
    rw [if_neg hn0, if_neg hn0]
    have := rangeStepGo_shift n (lst.length - n) 0 n lst.length
    simpa using this
  rw [hshift, List.map_map, List.length_drop]
  refine List.map_congr_left fun i _ => ?_
  simp only [Function.comp_apply]
  rw [List.drop_drop]

theorem divide_chunk_le {α : Type} (n : Nat) (hn : 1 ≤ n) :
    ∀ (fuel : Nat) (lst : List α), lst.length ≤ fuel →
      ∀ c ∈ divide lst n, c.length ≤ n := by
  intro fuel
  induction fuel with
  | zero =>
    intro lst h c hc
    rw [List.eq_nil_of_length_eq_zero (Nat.le_zero.mp h), divide_nil] at hc
    cases hc
  | succ f ih =>
    intro lst h c hc
    by_cases hne : lst = []
    · rw [hne, divide_nil] at hc; cases hc
    · rw [divide_cons lst n hn hne] at hc
      rcases List.mem_cons.mp hc with hc1 | hc1
      · subst hc1
        simp only [List.length_take]
        omega
      · have hlen : (lst.drop n).length ≤ f := by
          rw [List.length_drop]
          have := List.length_pos.mpr hne
          omega
        exact ih (lst.drop n) hlen c hc1

theorem divide_flatten {α : Type} (n : Nat) (hn : 1 ≤ n) :
    ∀ (fuel : Nat) (lst : List α), lst.length ≤ fuel →
      (divide lst n).flatten = lst := by
  intro fuel
  induction fuel with
  | zero =>
    intro lst h
    rw [List.eq_nil_of_length_eq_zero (Nat.le_zero.mp h), divide_nil]
    rfl
  | succ f ih =>
    intro lst h
    by_cases hne : lst = []
    · rw [hne, divide_nil]; rfl
    · rw [divide_cons lst n hn hne, List.flatten_cons]
      have hlen : (lst.drop n).length ≤ f := by
        rw [List.length_drop]
        have := List.length_pos.mpr hne
        omega
      rw [ih (lst.drop n) hlen]
      exact List.take_append_drop n lst

theorem divide_dropLast_full {α : Type} (n : Nat) (hn : 1 ≤ n) :
    ∀ (fuel : Nat) (lst : List α), lst.length ≤ fuel →
      ∀ c ∈ (divide lst n).dropLast, c.length = n := by
  intro fuel
  induction fuel with
  | zero =>
    intro lst h c hc
    rw [List.eq_nil_of_length_eq_zero (Nat.le_zero.mp h), divide_nil] at hc
    cases hc
  | succ f ih =>
    intro lst h c hc
    by_cases hne : lst = []
    · rw [hne, divide_nil] at hc; cases hc
    · rw [divide_cons lst n hn hne] at hc
      by_cases hd : lst.drop n = []
      · rw [hd, divide_nil, List.dropLast_single] at hc
        cases hc
      · have hdivne : divide (lst.drop n) n ≠ [] := by
          rw [divide_cons (lst.drop n) n hn hd]
          exact List.cons_ne_nil _ _
        rw [List.dropLast_cons_of_ne_nil hdivne] at hc
        rcases List.mem_cons.mp hc with hc1 | hc1
        · subst hc1
          have hpos := List.length_pos.mpr hd
          rw [List.length_drop] at hpos
          simp only [List.length_take]
          omega
        · have hlen : (lst.drop n).length ≤ f := by
            rw [List.length_drop]
            have := List.length_pos.mpr hne
            omega
          exact ih (lst.drop n) hlen c hc1

/-- C5: for chunk size at least 1, every chunk of `divide` has length at
most the size, the chunks concatenate back to the input in order, only the
last chunk may be shorter, the empty list yields no chunks, and the spec's
concrete example holds. -/
theorem divide_spec :
    ∀ (α : Type) (lst : List α) (n : Nat), 1 ≤ n →
      (∀ c ∈ divide lst n, c.length ≤ n) ∧
      (divide lst n).flatten = lst ∧
      (∀ c ∈ (divide lst n).dropLast, c.length = n) ∧
      divide ([] : List α) n = [] ∧
      divide [1, 2, 3, 4, 5] 2 = [[1, 2], [3, 4], [5]] := by
  intro α lst n hn
  exact ⟨divide_chunk_le n hn lst.length lst (Nat.le_refl _),
    divide_flatten n hn lst.length lst (Nat.le_refl _),
    divide_dropLast_full n hn lst.length lst (Nat.le_refl _),
    divide_nil n, by decide⟩

/-- C5 witness: the spec's own example instantiates every conjunct. -/
theorem divide_spec_witness :
    1 ≤ 2 ∧
    ((∀ c ∈ divide [1, 2, 3, 4, 5] 2, c.length ≤ 2) ∧
      (divide [1, 2, 3, 4, 5] 2).flatten = [1, 2, 3, 4, 5] ∧
      (∀ c ∈ (divide [1, 2, 3, 4, 5] 2).dropLast, c.length = 2) ∧
      divide ([] : List Nat) 2 = [] ∧
      divide [1, 2, 3, 4, 5] 2 = [[1, 2], [3, 4], [5]]) :=
  ⟨by decide, divide_spec Nat [1, 2, 3, 4, 5] 2 (by decide)⟩

/-- C9: the orchestrator's stock batches have size at most 100 and its
price batches at most 900, while the price-upload helper batches prices by
at most 1000; in both paths the batches concatenate back to the full
update list, so every record lands in exactly one batch, in order. -/
theorem push_batch_sizes (watch_remnants : List Watch) (offer_ids : List String)
    (sb : List (List StockEntry)) (pb : List (List PriceEntry))
    (h : mainModel watch_remnants offer_ids = some (sb, pb)) :
    (∀ b ∈ sb, b.length ≤ 100) ∧ (∀ b ∈ pb, b.length ≤ 900) ∧
    (∃ stocks rem, create_stocks watch_remnants offer_ids = some (stocks, rem) ∧
      sb.flatten = stocks ∧ pb.flatten = create_prices watch_remnants rem) ∧
    (∀ b ∈ uploadPricesBatches watch_remnants offer_ids, b.length ≤ 1000) ∧
    (uploadPricesBatches watch_remnants offer_ids).flatten =
      create_prices watch_remnants offer_ids := by
  unfold mainModel at h
  cases hcs : create_stocks watch_remnants offer_ids with
  | none => rw [hcs] at h; cases h
  | some pr =>
    obtain ⟨stocks, rem⟩ := pr
    rw [hcs] at h
    simp only [Option.some.injEq, Prod.mk.injEq] at h
    obtain ⟨h1, h2⟩ := h
    refine ⟨?_, ?_, ⟨stocks, rem, rfl, ?_, ?_⟩, ?_, ?_⟩
    · rw [← h1]
      exact divide_chunk_le 100 (by omega) stocks.length stocks (Nat.le_refl _)
    · rw [← h2]
      exact divide_chunk_le 900 (by omega) _ _ (Nat.le_refl _)
    · rw [← h1]
      exact divide_flatten 100 (by omega) stocks.length stocks (Nat.le_refl _)
    · rw [← h2]
      exact divide_flatten 900 (by omega) _ _ (Nat.le_refl _)
    · exact divide_chunk_le 1000 (by omega) _ _ (Nat.le_refl _)
    · exact divide_flatten 1000 (by omega) _ _ (Nat.le_refl _)

/-- C9 witness: a concrete run with one matched and one unmatched offer
id; the single stock batch holds both entries. -/
theorem push_batch_sizes_witness :
    mainModel [Watch.mk "A" ">10" "100.00"] ["A", "B"] =
      some ([[StockEntry.mk "A" 100, StockEntry.mk "B" 0]], []) ∧
    ((∀ b ∈ [[StockEntry.mk "A" 100, StockEntry.mk "B" 0]], b.length ≤ 100) ∧
      (∀ b ∈ ([] : List (List PriceEntry)), b.length ≤ 900) ∧
      (∃ stocks rem,
        create_stocks [Watch.mk "A" ">10" "100.00"] ["A", "B"] =
          some (stocks, rem) ∧
        ([[StockEntry.mk "A" 100, StockEntry.mk "B" 0]] :
            List (List StockEntry)).flatten = stocks ∧
        ([] : List (List PriceEntry)).flatten =
          create_prices [Watch.mk "A" ">10" "100.00"] rem) ∧
      (∀ b ∈ uploadPricesBatches [Watch.mk "A" ">10" "100.00"] ["A", "B"],
        b.length ≤ 1000) ∧
      (uploadPricesBatches [Watch.mk "A" ">10" "100.00"] ["A", "B"]).flatten =
        create_prices [Watch.mk "A" ">10" "100.00"] ["A", "B"]) :=
  ⟨by decide,
    push_batch_sizes [Watch.mk "A" ">10" "100.00"] ["A", "B"]
      [[StockEntry.mk "A" 100, StockEntry.mk "B" 0]] [] (by decide)⟩

/-- C10: in the orchestrator, `create_prices` runs on the very list that
`create_stocks` just depleted, so with pairwise-distinct catalog ids the
price-update list is empty and no price batch is ever pushed. -/
theorem main_price_updates_empty (watch_remnants : List Watch)
    (offer_ids : List String) (hnd : offer_ids.Nodup)
    (sb : List (List StockEntry)) (pb : List (List PriceEntry))
    (h : mainModel watch_remnants offer_ids = some (sb, pb)) :
    pb = [] ∧
    ∃ stocks rem, create_stocks watch_remnants offer_ids = some (stocks, rem) ∧
      create_prices watch_remnants rem = [] := by
  unfold mainModel at h
  cases hcs : create_stocks watch_remnants offer_ids with
  | none => rw [hcs] at h; cases h
  | some pr =>
    obtain ⟨stocks, rem⟩ := pr
    rw [hcs] at h
    simp only [Option.some.injEq, Prod.mk.injEq] at h
    have hrem := create_stocks_rem watch_remnants offer_ids stocks rem hnd hcs
    have hempty : create_prices watch_remnants rem = [] := by
      apply create_prices_nil
      intro w hw hmem
      rw [hrem] at hmem
      have hall := (List.mem_filter.mp hmem).2
      exact bne_iff_ne.mp (List.all_eq_true.mp hall w hw) rfl
    refine ⟨?_, stocks, rem, rfl, hempty⟩
    rw [← h.2, hempty]
    exact divide_nil 900

/-- C10 witness: with catalog ids A and B and a record coded A, the main
path pushes no price batch at all. -/
theorem main_price_updates_empty_witness :
    (["A", "B"] : List String).Nodup ∧
    mainModel [Watch.mk "A" "3" "100.00"] ["A", "B"] =
      some ([[StockEntry.mk "A" 3, StockEntry.mk "B" 0]], []) ∧
    (([] : List (List PriceEntry)) = [] ∧
      ∃ stocks rem,
        create_stocks [Watch.mk "A" "3" "100.00"] ["A", "B"] = some (stocks, rem) ∧
        create_prices [Watch.mk "A" "3" "100.00"] rem = []) :=
  ⟨by decide, by decide,
    main_price_updates_empty [Watch.mk "A" "3" "100.00"] ["A", "B"] (by decide)
      [[StockEntry.mk "A" 3, StockEntry.mk "B" 0]] [] (by decide)⟩

/-! Helper lemmas about the pagination loop. -/

theorem get_offer_ids_go_run (server : String → Page) (n : Nat)
    (h1 : stopsAt server n) (h2 : ∀ k < n, ¬ stopsAt server k) :
    ∀ (fuel j : Nat), j ≤ n → n - j < fuel →
      get_offer_ids_go server fuel (traceLast server j) (traceAcc server j) =
        some ((traceAcc server (n + 1)).map Product.offer_id) := by
  intro fuel
  induction fuel with
  | zero => intro j hj hf; exact absurd hf (Nat.not_lt_zero _)
  | succ f ih =>
    intro j hj hf
    simp only [get_offer_ids_go]
    by_cases hstop :
      (server (traceLast server j)).total =
        (traceAcc server j ++ (server (traceLast server j)).items).length
    · rw [if_pos hstop]
      have hsj : stopsAt server j := hstop
      have hjn : j = n := by
        by_contra hne
        exact h2 j (by omega) hsj
      subst hjn
      rfl
    · rw [if_neg hstop]
      have hsn : ¬ stopsAt server j := hstop
      have hne : j ≠ n := fun he => hsn (he ▸ h1)
      exact ih (j + 1) (by omega) (by omega)

theorem get_offer_ids_go_none (server : String → Page) :
    ∀ (fuel j : Nat), (∀ k, j ≤ k → k < j + fuel → ¬ stopsAt server k) →
      get_offer_ids_go server fuel (traceLast server j) (traceAcc server j) =
        none := by
  intro fuel
  induction fuel with
  | zero => intro j _; rfl
  | succ f ih =>
    intro j h
    simp only [get_offer_ids_go]
    have hsn : ¬ (server (traceLast server j)).total =
        (traceAcc server j ++ (server (traceLast server j)).items).length :=
      h j (Nat.le_refl j) (by omega)
    rw [if_neg hsn]
    exact ih (j + 1) fun k hk1 hk2 => h k (by omega) (by omega)

/-- C8: the pagination loop exits exactly at the first request after which
the reported total equals the accumulated item count: with at most that
many requests of fuel it is still running, and with any more it returns
the offer ids of precisely the pages fetched up to that request — for
every server behaviour that eventually satisfies the exit test, pages of
exactly 1000 items included. -/
theorem get_offer_ids_pagination (server : String → Page) (n : Nat)
    (h1 : stopsAt server n) (h2 : ∀ k < n, ¬ stopsAt server k) :
    (∀ fuel, fuel ≤ n → get_offer_ids_model server fuel = none) ∧
    (∀ fuel, n < fuel →
      get_offer_ids_model server fuel =
        some ((traceAcc server (n + 1)).map Product.offer_id)) := by
  constructor
  · intro fuel hf
    exact get_offer_ids_go_none server fuel 0 fun k hk1 hk2 => h2 k (by omega)
  · intro fuel hf
    exact get_offer_ids_go_run server n h1 h2 fuel 0 (Nat.zero_le n) (by omega)

/-- C8 witness: a server answering two pages of exactly 1000 items each
with total 2000 is still running after one request and terminates on the
second. -/
theorem get_offer_ids_pagination_witness :
    stopsAt pageServer 1 ∧ (∀ k < 1, ¬ stopsAt pageServer k) ∧
    get_offer_ids_model pageServer 1 = none ∧
    get_offer_ids_model pageServer 2 =
      some ((traceAcc pageServer 2).map Product.offer_id) := by
  have e0 : pageServer "" = ⟨List.replicate 1000 ⟨"x"⟩, 2000, "p1"⟩ := by
    unfold pageServer
    rw [if_pos rfl]
  have e1 : pageServer "p1" = ⟨List.replicate 1000 ⟨"y"⟩, 2000, "p2"⟩ := by
    unfold pageServer
    rw [if_neg (by decide : ¬ ("p1" : String) = "")]
  have h1 : stopsAt pageServer 1 := by
    unfold stopsAt
    simp only [traceAcc, traceLast, e0, e1, List.nil_append, List.length_append,
      List.length_replicate]
  have h2 : ∀ k < 1, ¬ stopsAt pageServer k := by
    intro k hk
    have hk0 : k = 0 := by omega
    subst hk0
    intro hc
    unfold stopsAt at hc
    simp only [traceAcc, traceLast, e0, List.nil_append,
      List.length_replicate] at hc
    omega
  exact ⟨h1, h2,
    (get_offer_ids_pagination pageServer 1 h1 h2).1 1 (by omega),
    (get_offer_ids_pagination pageServer 1 h1 h2).2 2 (by omega)⟩

end Seller
